import Mathlib

/-!
# Verification of the document-boundary detector core

Shallow embedding of `src/app/lib/documentDetector.js` (the classical
computer-vision pipeline: contour tracing over a binary mask, geometry,
polygon-approximation selection, candidate filtering/classification, and the
multi-strategy runner `detectDocumentsEnhanced`).

Modelling conventions:
* Mask/contour arithmetic in the source is exact integer arithmetic on small
  values; it is embedded over `ℤ`/`ℕ` verbatim.
* Real-valued quantities (areas, ratios, centroids, IoU) are embedded over `ℚ`.
  The source computes them in 64-bit floats; for the integer-derived inputs
  that reach these comparisons the float results are exact or round far away
  from the decision thresholds, so the `ℚ` model decides every comparison the
  same way as the source.
* The pixel filter stages (Gaussian blur with `exp`, Sobel with `sqrt`,
  adaptive threshold) and the Douglas-Peucker recursion (whose `ε` is a factor
  times a perimeter, a sum of square roots) are irrational-valued and are not
  re-executed here; the pipeline is parametrised over the contour list they
  produce and over the per-contour approximation result, so every theorem
  below quantifies over all possible outputs of those stages.
-/

/-- A pixel/contour point with integer coordinates
(`traceContour` only ever produces integer points). -/
structure Pt where
  x : ℤ
  y : ℤ
deriving DecidableEq, Repr

instance : Inhabited Pt := ⟨⟨0, 0⟩⟩

/-- Axis-aligned bounding box, `getBoundingBox` in the source.
All four fields are integers because contour points are. -/
structure BBox where
  x : ℤ
  y : ℤ
  width : ℤ
  height : ℤ
deriving DecidableEq, Repr

/-- Classification labels assigned by `classifyDetections`. -/
inductive BType where
  | singleDocument
  | document
  | bookSpreadLeft
  | bookSpreadRight
deriving DecidableEq, Repr

/-- An output boundary record.  `aspectVal` is the source's `aspectRatio`
field (renamed), `isConvexB` its `isConvex` field, `type` is `none` before
`classifyDetections` runs (JS `undefined`). -/
structure Boundary where
  points : List Pt
  area : ℚ
  aspectVal : ℚ
  numVertices : ℕ
  boundingRect : BBox
  isConvexB : Bool
  type : Option BType
deriving DecidableEq

/-- A single-channel 8-bit buffer, stored row-major as in the source. -/
abbrev Gray := List ℕ

/-- `stats` record of a `DetectionResult`. -/
structure Stats where
  totalDetected : ℕ
  processingPipeline : List String
deriving DecidableEq

/-- Result record of `detectDocuments`.  `intermediate` is the stage-keyed
buffer map (an association list here); `stats = none` models the empty
placeholder object `{}` used to initialise `bestResult` in
`detectDocumentsEnhanced`. -/
structure DetectionResult where
  boundaries : List Boundary
  intermediate : List (String × Gray)
  stats : Option Stats
deriving DecidableEq

/-- Detection options with the source's defaults.  `minAreaFrac` and
`maxAreaFrac` are the source's `minAreaRatio` / `maxAreaRatio` (renamed). -/
structure Options where
  minAreaFrac : ℚ := 2/100
  maxAreaFrac : ℚ := 95/100
  edgeThreshold : ℚ := 50
  blurRadius : ℕ := 2
deriving DecidableEq

/-! ## Geometry (`calculateContourArea`, `getBoundingBox`) -/

/-- Running shoelace sum: cross terms of consecutive points plus the closing
term back to `first`.  Matches the source loop `j = (i + 1) % n`. -/
def shoelaceAux (first : Pt) : List Pt → ℤ
  | [] => 0
  | [p] => p.x * first.y - first.x * p.y
  | p :: q :: rest => (p.x * q.y - q.x * p.y) + shoelaceAux first (q :: rest)

/-- Signed doubled area of the closed polygon through the point list. -/
def shoelace : List Pt → ℤ
  | [] => 0
  | p :: rest => shoelaceAux p (p :: rest)

/-- `calculateContourArea`: `Math.abs(area / 2)` on the shoelace sum. -/
def calculateContourArea (contour : List Pt) : ℚ :=
  |(shoelace contour : ℚ) / 2|

/-- `getBoundingBox`: min/max folds over all points.  The source folds from
`±Infinity`; for a nonempty list that equals folding from the first point, and
the empty case (unreachable: traced contours are nonempty) is fixed at zeros. -/
def getBoundingBox : List Pt → BBox
  | [] => ⟨0, 0, 0, 0⟩
  | p :: rest =>
    let mnx := rest.foldl (fun m q => min m q.x) p.x
    let mny := rest.foldl (fun m q => min m q.y) p.y
    let mxx := rest.foldl (fun m q => max m q.x) p.x
    let mxy := rest.foldl (fun m q => max m q.y) p.y
    ⟨mnx, mny, mxx - mnx, mxy - mny⟩

/-! ## Contour tracing (`findContours`, `traceContour`) -/

/-- Moore-neighbourhood x offsets, direction indices 0..7 clockwise from east. -/
def dirX : List ℤ := [1, 1, 0, -1, -1, -1, 0, 1]

/-- Moore-neighbourhood y offsets. -/
def dirY : List ℤ := [0, 1, 1, 1, 0, -1, -1, -1]

/-- Read a mask pixel: `data[y * width + x]` (callers bounds-check first). -/
def maskGet (data : Gray) (W : ℕ) (x y : ℤ) : ℕ :=
  data.getD (y * (W : ℤ) + x).toNat 0

/-- The neighbour search inside `traceContour`: try the 8 directions
`(startDir + i) % 8` for the offsets `i` in the given list (`0..7` at call
sites), returning the first in-bounds white neighbour and its direction. -/
def findNext (data : Gray) (W H : ℕ) (x y : ℤ) (startDir : ℕ) :
    List ℕ → Option (ℤ × ℤ × ℕ)
  | [] => none
  | i :: rest =>
    let d := (startDir + i) % 8
    let nx := x + dirX.getD d 0
    let ny := y + dirY.getD d 0
    if 0 ≤ nx ∧ nx < (W : ℤ) ∧ 0 ≤ ny ∧ ny < (H : ℤ) ∧ maskGet data W nx ny = 255
    then some (nx, ny, d)
    else findNext data W H x y startDir rest

/-- One `do … while` round of `traceContour`: push the current pixel, mark it
visited, look for the next boundary pixel; stop on no neighbour, on return to
the start, or when the iteration budget is exhausted.  `fuel` counts the
further rounds still allowed after the current one: the JS loop guard is
`iterations < maxIterations` after `iterations++`, so a run capped at
`maxIterations` rounds starts with `fuel = maxIterations - 1` and stops when
`fuel` hits 0. -/
def traceLoop (data : Gray) (W H : ℕ) (sx sy : ℤ) :
    ℕ → ℤ → ℤ → ℕ → List Pt → (ℕ → Bool) → List Pt × (ℕ → Bool)
  | fuel, x, y, d, acc, vis =>
    let acc' := acc ++ [⟨x, y⟩]
    let vis' := fun i => if i = (y * (W : ℤ) + x).toNat then true else vis i
    match findNext data W H x y ((d + 6) % 8) (List.range 8) with
    | none => (acc', vis')
    | some (nx, ny, nd) =>
      if nx = sx ∧ ny = sy then (acc', vis')
      else
        match fuel with
        | 0 => (acc', vis')
        | f + 1 => traceLoop data W H sx sy f nx ny nd acc' vis'

/-- `traceContour`: trace starting at `(sx, sy)` with direction 0 and an
iteration budget of `W * H` rounds (`fuel = W*H - 1` further rounds after the
first, matching the do-while that always runs once). -/
def traceContour (data : Gray) (W H : ℕ) (sx sy : ℤ) (vis : ℕ → Bool) :
    List Pt × (ℕ → Bool) :=
  traceLoop data W H sx sy (W * H - 1) sx sy 0 [] vis

/-- Row-major interior scan order of `findContours`:
`y` from 1 to `H-2`, `x` from 1 to `W-2`. -/
def scanPts (W H : ℕ) : List (ℕ × ℕ) :=
  (List.range' 1 (H - 2)).flatMap fun y => (List.range' 1 (W - 2)).map fun x => (x, y)

/-- The `findContours` scan: start a trace at each unvisited white pixel whose
left neighbour is black, keeping contours of at least 20 points. -/
def scanLoop (data : Gray) (W H : ℕ) : List (ℕ × ℕ) → (ℕ → Bool) → List (List Pt)
  | [], _ => []
  | (x, y) :: rest, vis =>
    let idx := y * W + x
    if data.getD idx 0 = 255 ∧ vis idx = false ∧ data.getD (idx - 1) 0 = 0 then
      let t := traceContour data W H (x : ℤ) (y : ℤ) vis
      if 20 ≤ t.1.length then t.1 :: scanLoop data W H rest t.2
      else scanLoop data W H rest t.2
    else scanLoop data W H rest vis

/-- `findContours`. -/
def findContours (data : Gray) (W H : ℕ) : List (List Pt) :=
  scanLoop data W H (scanPts W H) (fun _ => false)

/-- The same scan with the minimum-20-point filter removed: every contour the
scanner traces, in scan order.  Named comparison point for the discard policy;
`findContours` is proved equal to filtering this list. -/
def scanLoopAll (data : Gray) (W H : ℕ) : List (ℕ × ℕ) → (ℕ → Bool) → List (List Pt)
  | [], _ => []
  | (x, y) :: rest, vis =>
    let idx := y * W + x
    if data.getD idx 0 = 255 ∧ vis idx = false ∧ data.getD (idx - 1) 0 = 0 then
      let t := traceContour data W H (x : ℤ) (y : ℤ) vis
      t.1 :: scanLoopAll data W H rest t.2
    else scanLoopAll data W H rest vis

/-- All contours the scanner traces, before the length filter. -/
def findContoursAll (data : Gray) (W H : ℕ) : List (List Pt) :=
  scanLoopAll data W H (scanPts W H) (fun _ => false)

/-! ## Polygon-approximation selection (lines 105-132 of `detectDocuments`)

`approximatePolygon` and `findCorners` both return sublists of the (integer)
contour points, but their acceptance thresholds are irrational (`ε` is a
factor times the perimeter, a sum of square roots; corner spacing uses
`acos`/`sqrt`), so the selection logic is embedded parametrically:
`approx f` stands for `approximatePolygon(contour, f * perimeter)` and
`corners` for `findCorners(contour, 4)`. -/

/-- The five `epsilonFactor` values of the sweep. -/
def epsilonFactors : List ℚ := [1/100, 2/100, 3/100, 4/100, 5/100]

/-- The epsilon sweep: break on an exactly-4-vertex result, otherwise keep the
vertex count in `[4, 8]` closest to 4, earliest tried first. -/
def sweepLoop (approx : ℚ → List Pt) : List ℚ → Option (List Pt) → Option (List Pt)
  | [], best => best
  | f :: rest, best =>
    let a := approx f
    if a.length = 4 then some a
    else if 4 ≤ a.length ∧ a.length ≤ 8 then
      match best with
      | none => sweepLoop approx rest (some a)
      | some b =>
        if ((a.length : ℤ) - 4).natAbs < ((b.length : ℤ) - 4).natAbs then
          sweepLoop approx rest (some a)
        else sweepLoop approx rest (some b)
    else sweepLoop approx rest best

/-- The sweep over the five factors, starting from `bestApprox = null`. -/
def sweepBest (approx : ℚ → List Pt) : Option (List Pt) :=
  sweepLoop approx epsilonFactors none

/-- The full `bestApprox` computation: the sweep, then the corner-search
fallback `if (!bestApprox || bestApprox.length > 6)`, whose result is taken
only when it has exactly 4 points. -/
def chooseApprox (approx : ℚ → List Pt) (corners : List Pt) : Option (List Pt) :=
  match sweepBest approx with
  | none => if corners.length = 4 then some corners else none
  | some b =>
    if 6 < b.length then
      (if corners.length = 4 then some corners else some b)
    else some b

/-! ## Quadrilateral point ordering (`orderQuadPoints`) -/

/-- `x + y`, the key minimised to pick the starting ("top-left") vertex. -/
def sumXY (p : Pt) : ℤ := p.x + p.y

/-- Position of `atan2(dy, dx)` in the ascending order of its range `(-π, π]`:
class 0 is `dy < 0` (angles in `(-π, 0)`), class 1 is the positive x-axis and
the origin (angle 0), class 2 is `dy > 0` (angles in `(0, π)`), class 3 is the
negative x-axis (angle π). -/
def angCls (dx dy : ℚ) : ℕ :=
  if dy < 0 then 0
  else if dy = 0 ∧ 0 ≤ dx then 1
  else if 0 < dy then 2
  else 3

/-- 2D cross product. -/
def cross2 (ux uy vx vy : ℚ) : ℚ := ux * vy - uy * vx

/-- Exact decision of `atan2(uy, ux) < atan2(vy, vx)`: compare the half-plane
classes; within the open half-planes (classes 0 and 2) the angle difference
lies in `(-π, π)`, so its sign is the sign of the cross product `u × v`;
classes 1 and 3 each hold a single angle, so no strict inequality inside them.
This decides the `Math.atan2` comparator of the source exactly for the
integer-coordinate points (around a rational centroid) that reach it. -/
def angLtQ (ux uy vx vy : ℚ) : Prop :=
  angCls ux uy < angCls vx vy ∨ (angCls ux uy = angCls vx vy ∧ 0 < cross2 ux uy vx vy)

instance (ux uy vx vy : ℚ) : Decidable (angLtQ ux uy vx vy) := by
  unfold angLtQ; infer_instance

/-- Non-strict angular order around the centre `(cx, cy)`; the stable sort on
this preorder is exactly the source's stable `sort((a, b) => angleA - angleB)`. -/
def angLeAround (cx cy : ℚ) (a b : Pt) : Prop :=
  ¬ angLtQ ((b.x : ℚ) - cx) ((b.y : ℚ) - cy) ((a.x : ℚ) - cx) ((a.y : ℚ) - cy)

instance (cx cy : ℚ) : DecidableRel (angLeAround cx cy) := fun _ _ => by
  unfold angLeAround; infer_instance

/-- x-coordinate of the quad centroid (the source divides by the literal 4). -/
def centroidX4 (ps : List Pt) : ℚ := (ps.map fun p => (p.x : ℚ)).sum / 4

/-- y-coordinate of the quad centroid. -/
def centroidY4 (ps : List Pt) : ℚ := (ps.map fun p => (p.y : ℚ)).sum / 4

/-- The angle-sorting step of `orderQuadPoints`. -/
def angleSortQuad (ps : List Pt) : List Pt :=
  List.insertionSort (angLeAround (centroidX4 ps) (centroidY4 ps)) ps

/-- The `minSum/startIdx` loop: index of the first strict minimum of `x + y`
(the JS loop starts from `minSum = Infinity`, i.e. from the head element). -/
def minSumIdxAux : List Pt → ℕ → ℤ → ℕ → ℕ
  | [], _, _, best => best
  | p :: rest, i, bv, best =>
    if sumXY p < bv then minSumIdxAux rest (i + 1) (sumXY p) i
    else minSumIdxAux rest (i + 1) bv best

/-- Index of the first point with minimal `x + y`. -/
def minSumIdx : List Pt → ℕ
  | [] => 0
  | p :: rest => minSumIdxAux rest 1 (sumXY p) 0

/-- `orderQuadPoints`: for exactly 4 points, sort by angle around the centroid
and rotate so the minimal `x + y` vertex is first; otherwise the input is
returned unchanged. -/
def orderQuadPoints (points : List Pt) : List Pt :=
  if points.length = 4 then
    (angleSortQuad points).rotate (minSumIdx (angleSortQuad points))
  else points

/-- `isConvex`: signs of the cross products of consecutive edge pairs must
agree.  The source's first-mismatch loop returns false exactly when both a
positive and a negative cross product occur. -/
def isConvexFn (ps : List Pt) : Bool :=
  if ps.length < 3 then false
  else
    let n := ps.length
    let crosses := (List.range n).map fun i =>
      let p1 := ps.getD i default
      let p2 := ps.getD ((i + 1) % n) default
      let p3 := ps.getD ((i + 2) % n) default
      (p2.x - p1.x) * (p3.y - p2.y) - (p2.y - p1.y) * (p3.x - p2.x)
    !((crosses.any fun c => decide (0 < c)) && (crosses.any fun c => decide (c < 0)))

/-! ## Overlap filtering (`filterOverlapping`, `calculateIoU`) -/

/-- `calculateIoU` on axis-aligned boxes.  In the nonzero branch the widths
and heights of both boxes are positive and the intersection is contained in
each box, so the union is positive and the division is well-defined. -/
def calculateIoU (r1 r2 : BBox) : ℚ :=
  let x1 := max r1.x r2.x
  let y1 := max r1.y r2.y
  let x2 := min (r1.x + r1.width) (r2.x + r2.width)
  let y2 := min (r1.y + r1.height) (r2.y + r2.height)
  if x2 ≤ x1 ∨ y2 ≤ y1 then 0
  else
    let inter : ℚ := ((x2 - x1) * (y2 - y1) : ℤ)
    let area1 : ℚ := (r1.width * r1.height : ℤ)
    let area2 : ℚ := (r2.width * r2.height : ℤ)
    inter / (area1 + area2 - inter)

/-- `filterOverlapping`: greedy non-maximum suppression.  The source walks the
list with a `used` index set; an element is kept iff no earlier kept element
suppresses it (IoU above the threshold), which is this recursion: keep the
head, drop the suppressed later elements, recurse on the rest. -/
def filterOverlapping (t : ℚ) : List Boundary → List Boundary
  | [] => []
  | b :: rest =>
    b :: filterOverlapping t
      (rest.filter fun c => decide (calculateIoU b.boundingRect c.boundingRect ≤ t))
termination_by l => l.length
decreasing_by
  simp only [List.length_cons]
  exact Nat.lt_succ_of_le (List.length_filter_le _ _)

/-! ## Classification (`classifyDetections`) -/

/-- The adjacent-pair book-spread pass over the x-sorted boundaries (paired
with their positions in the original list, standing in for the JS object
identities through which the source mutates `type`).  Later pair matches
overwrite earlier ones, exactly as the mutating loop does. -/
def pairScan : List (ℕ × Boundary) → (ℕ → Option BType) → (ℕ → Option BType)
  | a :: b :: rest, m =>
    let lb := a.2.boundingRect
    let rb := b.2.boundingRect
    let gap : ℚ := (rb.x : ℚ) - ((lb.x : ℚ) + (lb.width : ℚ))
    let avgW : ℚ := ((lb.width : ℚ) + (rb.width : ℚ)) / 2
    let hDiff : ℚ := |(lb.height : ℚ) - (rb.height : ℚ)|
    let avgH : ℚ := ((lb.height : ℚ) + (rb.height : ℚ)) / 2
    if gap < avgW * (3/10) ∧ hDiff < avgH * (3/10) then
      pairScan (b :: rest)
        (fun i => if i = b.1 then some BType.bookSpreadRight
                  else if i = a.1 then some BType.bookSpreadLeft else m i)
    else pairScan (b :: rest) m
  | _, m => m

/-- `classifyDetections`, as a function from the filtered list to the typed
list: pair labels win, otherwise an already-present type is kept, otherwise
the default `single-document` / `document` label is assigned. -/
def classifyDetections (bs : List Boundary) : List Boundary :=
  let labelMap : ℕ → Option BType :=
    if 2 ≤ bs.length then
      pairScan
        (List.insertionSort
          (fun p q : ℕ × Boundary => p.2.boundingRect.x ≤ q.2.boundingRect.x) bs.enum)
        (fun _ => none)
    else fun _ => none
  bs.enum.map fun p =>
    { p.2 with
      type :=
        match labelMap p.1 with
        | some t => some t
        | none =>
          match p.2.type with
          | some t0 => some t0
          | none => some (if bs.length = 1 then BType.singleDocument else BType.document) }

/-! ## Per-contour filtering and the `detectDocuments` result
(lines 91-166 of the source) -/

/-- The stored `aspectRatio = bbox.width / bbox.height` (in `ℚ`; at
`height = 0` the source stores a float `Infinity`/`NaN`, which `aspectReject`
below accounts for — such a contour never reaches a returned boundary). -/
def aspectQ (bb : BBox) : ℚ := (bb.width : ℚ) / (bb.height : ℚ)

/-- The filter `aspectRatio < 0.3 || aspectRatio > 3.5` with JS float
semantics at `height = 0`: width positive gives `Infinity > 3.5` (reject);
width zero gives `NaN`, whose comparisons are all false (keep). -/
def aspectReject (bb : BBox) : Bool :=
  if bb.height = 0 then decide (bb.width ≠ 0)
  else decide (aspectQ bb < 3/10 ∨ 7/2 < aspectQ bb)

/-- The per-contour body of the `for (const contour of contours)` loop:
area filter, aspect filter, approximation (parametrised as `approxFor`,
standing for the sweep-plus-fallback on this contour), vertex-count guard,
quad ordering, and construction of the `Boundary` record. -/
def contourToBoundary (approxFor : List Pt → Option (List Pt)) (minA maxA : ℚ)
    (contour : List Pt) : Option Boundary :=
  let area := calculateContourArea contour
  if area < minA ∨ maxA < area then none
  else
    let bbox := getBoundingBox contour
    if aspectReject bbox then none
    else
      match approxFor contour with
      | none => none
      | some best =>
        if 4 ≤ best.length ∧ best.length ≤ 8 then
          let pts := if best.length = 4 then orderQuadPoints best else best
          some { points := pts, area := area, aspectVal := aspectQ bbox,
                 numVertices := best.length, boundingRect := bbox,
                 isConvexB := isConvexFn pts, type := none }
        else none

/-- Steps 8+ of `detectDocuments`: build boundaries from the contours, sort by
area descending (stable, as JS sort), suppress overlaps at threshold 0.5,
classify. -/
def detectPipeline (approxFor : List Pt → Option (List Pt)) (contours : List (List Pt))
    (W H : ℕ) (opts : Options) : List Boundary :=
  let minA : ℚ := ((W * H : ℕ) : ℚ) * opts.minAreaFrac
  let maxA : ℚ := ((W * H : ℕ) : ℚ) * opts.maxAreaFrac
  let bs := contours.filterMap (contourToBoundary approxFor minA maxA)
  let sorted := List.insertionSort (fun a b : Boundary => b.area ≤ a.area) bs
  classifyDetections (filterOverlapping (1/2) sorted)

/-- The fixed `stats.processingPipeline` list. -/
def pipelineStages : List String :=
  ["grayscale", "blur", "edges", "threshold", "contours", "filter"]

/-- The `DetectionResult` returned by `detectDocuments`, with the pixel-stage
buffers (`intermediate`) passed in, since the blur/Sobel/threshold kernels are
float-transcendental and outside this embedding. -/
def detectDocumentsModel (approxFor : List Pt → Option (List Pt))
    (contours : List (List Pt)) (inter : List (String × Gray))
    (W H : ℕ) (opts : Options) : DetectionResult :=
  let filtered := detectPipeline approxFor contours W H opts
  { boundaries := filtered, intermediate := inter,
    stats := some ⟨filtered.length, pipelineStages⟩ }

/-! ## The strategy runner (`detectDocumentsEnhanced`) -/

/-- Number of 4-vertex boundaries in a result. -/
def quadCount (r : DetectionResult) : ℕ :=
  (r.boundaries.filter fun b => decide (b.numVertices = 4)).length

/-- The initial `bestResult = { boundaries: [], intermediate: {}, stats: {} }`. -/
def emptyDetectionResult : DetectionResult := ⟨[], [], none⟩

/-- The four option-override sets, in execution order. -/
def strategies (base : Options) : List Options :=
  [ base,
    { base with edgeThreshold := 30, minAreaFrac := 3/100 },
    { base with edgeThreshold := 70, blurRadius := 3 },
    { base with minAreaFrac := 1/100, maxAreaFrac := 98/100 } ]

/-- The strategy loop of `detectDocumentsEnhanced`, parametrised over
`detect`, which stands for `detectDocuments(source, ·)` on the fixed input
raster (`Except.error` models a thrown exception, caught and skipped). -/
def runStrategies (detect : Options → Except Unit DetectionResult) :
    List Options → DetectionResult → ℕ → DetectionResult
  | [], best, _ => best
  | s :: rest, best, maxQuads =>
    match detect s with
    | .error _ => runStrategies detect rest best maxQuads
    | .ok r =>
      let quads := quadCount r
      let best1 := if maxQuads < quads then r else best
      let max1 := if maxQuads < quads then quads else maxQuads
      if 0 < quads then r
      else
        let best2 := if best1.boundaries.length < r.boundaries.length then r else best1
        runStrategies detect rest best2 max1

/-- `detectDocumentsEnhanced`. -/
def detectDocumentsEnhanced (detect : Options → Except Unit DetectionResult)
    (base : Options) : DetectionResult :=
  runStrategies detect (strategies base) emptyDetectionResult 0

/-! ## Input validation (spec §6/§7) -/

/-- A raster as the spec's decoder interface delivers it. -/
structure Raster where
  width : ℕ
  height : ℕ
  data : List ℕ
deriving DecidableEq

/-- The spec's surfaced error kinds. -/
inductive DetectError where
  | invalidInput
  | outOfMemory
deriving DecidableEq

/-- Modelled from the spec: the source function receives its input through the
browser Canvas API, which only ever hands over well-formed rasters, so the
`InvalidInput` validation described in spec §6/§7 has no counterpart under
`src/`.  Per the spec's words, `detect` rejects `W = 0`, `H = 0` or an RGBA
buffer whose length differs from `4·W·H` with `InvalidInput` before any
pipeline work; the pipeline is a parameter so that the rejection provably does
not depend on it. -/
def detectChecked (pipeline : Raster → Options → DetectionResult)
    (r : Raster) (opts : Options) : Except DetectError DetectionResult :=
  if r.width = 0 ∨ r.height = 0 ∨ r.data.length ≠ 4 * r.width * r.height then
    .error .invalidInput
  else .ok (pipeline r opts)

/-! # Theorems -/

/-! ## Strategy runner (claims C1, C2) -/

/-- A strategy run that does not trigger the early exit: it either throws or
completes with no 4-vertex boundary. -/
def noQuadRun (detect : Options → Except Unit DetectionResult) (o : Options) : Prop :=
  detect o = .error () ∨ ∃ r, detect o = .ok r ∧ quadCount r = 0

lemma runStrategies_first_quad (detect : Options → Except Unit DetectionResult)
    (rest : List Options) (s : Options) (r : DetectionResult)
    (hs : detect s = .ok r) (hq : 0 < quadCount r) :
    ∀ pre, (∀ o ∈ pre, noQuadRun detect o) → ∀ best maxq,
      runStrategies detect (pre ++ s :: rest) best maxq = r := by
  intro pre
  induction pre with
  | nil =>
    intro _ best maxq
    simp only [List.nil_append, runStrategies, hs]
    simp [hq]
  | cons o pre ih =>
    intro hpre best maxq
    have hpre' : ∀ o' ∈ pre, noQuadRun detect o' :=
      fun o' ho' => hpre o' (List.mem_cons_of_mem _ ho')
    rcases hpre o (List.mem_cons_self o pre) with herr | ⟨r', hok, hq0⟩
    · simp only [List.cons_append, runStrategies, herr]
      exact ih hpre' best maxq
    · simp only [List.cons_append, runStrategies, hok, hq0]
      simp only [Nat.not_lt_zero, if_false, lt_self_iff_false]
      exact ih hpre' _ _

/-- C1: `detectEnhanced` executes the four strategy option-override sets in
the specified order (base unchanged; edgeThreshold=30 with minAreaRatio=0.03;
edgeThreshold=70 with blurRadius=3; minAreaRatio=0.01 with maxAreaRatio=0.98),
and returns the result of the first run that produces at least one 4-vertex
boundary, without executing the remaining strategies.  Formally: for any split
of the strategy list into earlier runs `pre` (each throwing or yielding no
4-vertex boundary) and a run `s` yielding one, the runner returns `s`'s
result; moreover any `detect2` agreeing with `detect` on `pre` and `s` — i.e.
regardless of what the strategies after `s` would do — returns the same, and
the strategy list is exactly the specified override sequence. -/
theorem detectEnhanced_first_quad_run
    (detect detect2 : Options → Except Unit DetectionResult) (base : Options)
    (pre rest : List Options) (s : Options) (r : DetectionResult)
    (hsplit : strategies base = pre ++ s :: rest)
    (hpre : ∀ o ∈ pre, noQuadRun detect o)
    (hagree : ∀ o ∈ pre, detect2 o = detect o)
    (hs2 : detect2 s = detect s)
    (hs : detect s = .ok r) (hq : 0 < quadCount r) :
    detectDocumentsEnhanced detect2 base = r ∧
    strategies base = [base,
      { base with edgeThreshold := 30, minAreaFrac := 3/100 },
      { base with edgeThreshold := 70, blurRadius := 3 },
      { base with minAreaFrac := 1/100, maxAreaFrac := 98/100 }] := by
  refine ⟨?_, rfl⟩
  have hpre2 : ∀ o ∈ pre, noQuadRun detect2 o := by
    intro o ho
    unfold noQuadRun
    rw [hagree o ho]
    exact hpre o ho
  rw [detectDocumentsEnhanced, hsplit]
  exact runStrategies_first_quad detect2 rest s r (hs2.trans hs) hq pre hpre2 _ _

/-- A 4-vertex boundary used by concrete runner instances. -/
def quadBoundaryW : Boundary :=
  { points := [⟨0, 0⟩, ⟨0, 3⟩, ⟨3, 3⟩, ⟨3, 0⟩], area := 9, aspectVal := 1,
    numVertices := 4, boundingRect := ⟨0, 0, 3, 3⟩, isConvexB := true, type := none }

/-- A concrete run result containing one 4-vertex boundary. -/
def quadResultW : DetectionResult :=
  { boundaries := [quadBoundaryW], intermediate := [("grayscale", [0])],
    stats := some ⟨1, pipelineStages⟩ }

/-- A concrete `detect` whose every run yields `quadResultW`. -/
def detectQuadW : Options → Except Unit DetectionResult := fun _ => .ok quadResultW

theorem detectEnhanced_first_quad_run_witness :
    detectDocumentsEnhanced detectQuadW {} = quadResultW :=
  (detectEnhanced_first_quad_run detectQuadW detectQuadW {} []
    [ { ({} : Options) with edgeThreshold := 30, minAreaFrac := 3/100 },
      { ({} : Options) with edgeThreshold := 70, blurRadius := 3 },
      { ({} : Options) with minAreaFrac := 1/100, maxAreaFrac := 98/100 } ]
    {} quadResultW rfl (by simp) (by simp) rfl rfl (by decide)).1

/-- A concrete `detect` whose every run completes with zero boundaries but a
populated intermediate map. -/
def detectAllEmptyW : Options → Except Unit DetectionResult :=
  fun _ => .ok { boundaries := [], intermediate := [("grayscale", [0, 0])],
                 stats := some ⟨0, pipelineStages⟩ }

/-- C2 counterexample: every strategy run completes with zero boundaries and a
populated (nonempty) intermediate map, yet the result `detectEnhanced` returns
has an EMPTY intermediate map: the initial placeholder
`{ boundaries: [], intermediate: {}, stats: {} }` is never replaced, because
a zero-boundary run never beats it under `quads.length > maxQuads` (0 > 0) or
`result.boundaries.length > bestResult.boundaries.length` (0 > 0). -/
theorem detectEnhanced_empty_runs_counterexample :
    (∀ o ∈ strategies {}, ∃ r, detectAllEmptyW o = .ok r ∧
        r.boundaries = [] ∧ r.intermediate ≠ []) ∧
    (detectDocumentsEnhanced detectAllEmptyW {}).intermediate = [] := by
  constructor
  · intro o _
    exact ⟨_, rfl, rfl, by decide⟩
  · rfl

lemma runStrategies_all_empty (detect : Options → Except Unit DetectionResult) :
    ∀ ss : List Options, (∀ o ∈ ss, ∃ r, detect o = .ok r ∧ r.boundaries = []) →
      runStrategies detect ss emptyDetectionResult 0 = emptyDetectionResult := by
  intro ss
  induction ss with
  | nil => intro _; rfl
  | cons o ss ih =>
    intro h
    obtain ⟨r, hok, hb⟩ := h o (List.mem_cons_self o ss)
    have hq : quadCount r = 0 := by simp [quadCount, hb]
    simp only [runStrategies, hok, hq, hb]
    simp only [Nat.not_lt_zero, if_false, lt_self_iff_false, List.length_nil,
      emptyDetectionResult]
    exact ih fun o' ho' => h o' (List.mem_cons_of_mem _ ho')

/-- C2 amended: if every strategy run completes with zero boundaries, the
returned result is the initial placeholder — empty boundaries, an EMPTY
intermediate map and an empty stats record (rather than the populated
intermediates of some run, as the claim stated). -/
theorem detectEnhanced_all_empty_amended
    (detect : Options → Except Unit DetectionResult) (base : Options)
    (h : ∀ o ∈ strategies base, ∃ r, detect o = .ok r ∧ r.boundaries = []) :
    detectDocumentsEnhanced detect base = emptyDetectionResult :=
  runStrategies_all_empty detect (strategies base) h

theorem detectEnhanced_all_empty_amended_witness :
    detectDocumentsEnhanced detectAllEmptyW {} = emptyDetectionResult :=
  detectEnhanced_all_empty_amended detectAllEmptyW {} (fun _ _ => ⟨_, rfl, rfl⟩)

/-! ## Epsilon sweep and corner-search fallback (claim C3) -/

/-- A 7-vertex approximation result, returned for every factor. -/
def sevenPtsW : List Pt := [⟨0, 0⟩, ⟨4, 0⟩, ⟨8, 2⟩, ⟨8, 6⟩, ⟨4, 8⟩, ⟨0, 8⟩, ⟨0, 4⟩]

/-- A 4-point corner-search result. -/
def fourPtsW : List Pt := [⟨0, 0⟩, ⟨8, 0⟩, ⟨8, 8⟩, ⟨0, 8⟩]

/-- A 5-vertex approximation result, returned for every factor. -/
def fivePtsW : List Pt := [⟨0, 0⟩, ⟨8, 0⟩, ⟨8, 8⟩, ⟨4, 9⟩, ⟨0, 8⟩]

/-- Approximation yielding 7 vertices at every epsilon factor. -/
def approxSevenW : ℚ → List Pt := fun _ => sevenPtsW

/-- Approximation yielding 5 vertices at every epsilon factor. -/
def approxFiveW : ℚ → List Pt := fun _ => fivePtsW

/-- C3 counterexample: a factor yields a 7-vertex approximation — vertex count
in [4, 8], kept by the sweep — yet the corner-search fallback IS invoked
(`bestApprox.length > 6`) and its 4-point result replaces the sweep's result,
contradicting the claim that the fallback runs only when no factor yielded a
count in [4, 8] and never replaces a kept sweep result. -/
theorem sweep_fallback_counterexample :
    (4 ≤ (approxSevenW (1/100)).length ∧ (approxSevenW (1/100)).length ≤ 8) ∧
    sweepBest approxSevenW = some sevenPtsW ∧
    chooseApprox approxSevenW fourPtsW = some fourPtsW ∧
    fourPtsW ≠ sevenPtsW := by
  refine ⟨⟨?_, ?_⟩, ?_, ?_, ?_⟩ <;> decide

lemma sweepLoop_range (approx : ℚ → List Pt) :
    ∀ (fs : List ℚ) (best : Option (List Pt)),
      (∀ b, best = some b → 4 ≤ b.length ∧ b.length ≤ 8) →
      ∀ b, sweepLoop approx fs best = some b → 4 ≤ b.length ∧ b.length ≤ 8 := by
  intro fs
  induction fs with
  | nil => intro best hbest b hb; exact hbest b hb
  | cons f rest ih =>
    intro best hbest b hb
    simp only [sweepLoop] at hb
    by_cases h4 : (approx f).length = 4
    · rw [if_pos h4] at hb
      cases hb
      omega
    · rw [if_neg h4] at hb
      by_cases hr : 4 ≤ (approx f).length ∧ (approx f).length ≤ 8
      · rw [if_pos hr] at hb
        cases best with
        | none =>
          exact ih _ (fun b' hb' => by cases hb'; exact hr) b hb
        | some bv =>
          dsimp only at hb
          rcases Decidable.em
              ((((approx f).length : ℤ) - 4).natAbs < ((bv.length : ℤ) - 4).natAbs) with
            hlt | hge
          · rw [if_pos hlt] at hb
            exact ih _ (fun b' hb' => by cases hb'; exact hr) b hb
          · rw [if_neg hge] at hb
            exact ih _ (fun b' hb' => by cases hb'; exact hbest bv rfl) b hb
      · rw [if_neg hr] at hb
        exact ih best hbest b hb

/-- C3 amended: the sweep itself keeps only results with vertex count in
[4, 8] (earliest-tried closest to 4, as claimed), but the corner-search
fallback is invoked not only when the sweep kept nothing — it is also invoked
when the kept result has MORE THAN 6 vertices, and a fallback result with
exactly 4 vertices then replaces the kept 7- or 8-vertex result.  When the
kept result has at most 6 vertices the fallback is not consulted, and a
fallback result is accepted only with exactly 4 vertices. -/
theorem chooseApprox_fallback_amended (approx : ℚ → List Pt) (corners : List Pt) :
    (∀ b, sweepBest approx = some b → 4 ≤ b.length ∧ b.length ≤ 8) ∧
    (∀ b, sweepBest approx = some b → b.length ≤ 6 →
      chooseApprox approx corners = some b) ∧
    (∀ b, sweepBest approx = some b → 6 < b.length →
      chooseApprox approx corners =
        if corners.length = 4 then some corners else some b) ∧
    (sweepBest approx = none →
      chooseApprox approx corners =
        if corners.length = 4 then some corners else none) := by
  refine ⟨?_, ?_, ?_, ?_⟩
  · intro b hb
    exact sweepLoop_range approx epsilonFactors none (fun b' hb' => by cases hb') b hb
  · intro b hb hle
    simp only [chooseApprox, hb]
    rw [if_neg (Nat.not_lt.mpr hle)]
  · intro b hb hgt
    simp only [chooseApprox, hb]
    rw [if_pos hgt]
  · intro hn
    simp only [chooseApprox, hn]

theorem chooseApprox_fallback_amended_witness :
    chooseApprox approxFiveW fourPtsW = some fivePtsW :=
  (chooseApprox_fallback_amended approxFiveW fourPtsW).2.1 fivePtsW (by decide) (by decide)

/-! ## Input validation (claim C5) -/

/-- C5 (modelled from the spec, the validation layer being absent from src):
`detect` rejects an unsupported raster — `W = 0`, `H = 0`, or RGBA length
different from `4·W·H` — with `InvalidInput`, and does so before any pipeline
work: the result is `InvalidInput` for EVERY pipeline function, so no pipeline
computation can influence (or be observed by) the failure. -/
theorem detectChecked_invalid_input (pipeline : Raster → Options → DetectionResult)
    (r : Raster) (opts : Options)
    (h : r.width = 0 ∨ r.height = 0 ∨ r.data.length ≠ 4 * r.width * r.height) :
    detectChecked pipeline r opts = .error .invalidInput := by
  rw [detectChecked, if_pos h]

theorem detectChecked_invalid_input_witness :
    detectChecked (fun _ _ => emptyDetectionResult) ⟨0, 5, []⟩ {} =
      .error .invalidInput :=
  detectChecked_invalid_input (fun _ _ => emptyDetectionResult) ⟨0, 5, []⟩ {} (Or.inl rfl)

/-! ## Contour tracer soundness (claims C10, C4) -/

/-- A point that is in bounds and white in the mask. -/
def goodPt (data : Gray) (W H : ℕ) (p : Pt) : Prop :=
  0 ≤ p.x ∧ p.x < (W : ℤ) ∧ 0 ≤ p.y ∧ p.y < (H : ℤ) ∧ maskGet data W p.x p.y = 255

lemma findNext_sound (data : Gray) (W H : ℕ) (x y : ℤ) (sd : ℕ) :
    ∀ (is : List ℕ) (nx ny : ℤ) (nd : ℕ),
      findNext data W H x y sd is = some (nx, ny, nd) →
      goodPt data W H ⟨nx, ny⟩ := by
  intro is
  induction is with
  | nil => intro nx ny nd h; cases h
  | cons i rest ih =>
    intro nx ny nd h
    simp only [findNext] at h
    split at h
    · rename_i hc
      cases h
      exact hc
    · exact ih nx ny nd h

lemma traceLoop_shape (data : Gray) (W H : ℕ) (sx sy : ℤ) :
    ∀ (fuel : ℕ) (x y : ℤ) (d : ℕ) (acc : List Pt) (vis : ℕ → Bool),
      ∃ t, (traceLoop data W H sx sy fuel x y d acc vis).1 = acc ++ ⟨x, y⟩ :: t := by
  intro fuel
  induction fuel with
  | zero =>
    intro x y d acc vis
    rw [traceLoop]
    cases hfn : findNext data W H x y ((d + 6) % 8) (List.range 8) with
    | none => exact ⟨[], by simp⟩
    | some v =>
      obtain ⟨nx, ny, nd⟩ := v
      simp only
      by_cases hret : nx = sx ∧ ny = sy
      · rw [if_pos hret]; exact ⟨[], by simp⟩
      · rw [if_neg hret]; exact ⟨[], by simp⟩
  | succ f ih =>
    intro x y d acc vis
    rw [traceLoop]
    cases hfn : findNext data W H x y ((d + 6) % 8) (List.range 8) with
    | none => exact ⟨[], by simp⟩
    | some v =>
      obtain ⟨nx, ny, nd⟩ := v
      simp only
      by_cases hret : nx = sx ∧ ny = sy
      · rw [if_pos hret]; exact ⟨[], by simp⟩
      · rw [if_neg hret]
        obtain ⟨t', ht'⟩ := ih nx ny nd (acc ++ [⟨x, y⟩]) _
        exact ⟨Pt.mk nx ny :: t', by rw [ht']; simp⟩

lemma traceLoop_points (data : Gray) (W H : ℕ) (sx sy : ℤ) :
    ∀ (fuel : ℕ) (x y : ℤ) (d : ℕ) (acc : List Pt) (vis : ℕ → Bool),
      (∀ p ∈ acc, goodPt data W H p) → goodPt data W H ⟨x, y⟩ →
      ∀ p ∈ (traceLoop data W H sx sy fuel x y d acc vis).1, goodPt data W H p := by
  intro fuel
  induction fuel with
  | zero =>
    intro x y d acc vis hacc hxy p hp
    rw [traceLoop] at hp
    have hacc' : ∀ q ∈ acc ++ [Pt.mk x y], goodPt data W H q := by
      intro q hq
      rcases List.mem_append.mp hq with hq | hq
      · exact hacc q hq
      · rcases List.mem_singleton.mp hq with rfl
        exact hxy
    cases hfn : findNext data W H x y ((d + 6) % 8) (List.range 8) with
    | none => rw [hfn] at hp; exact hacc' p hp
    | some v =>
      obtain ⟨nx, ny, nd⟩ := v
      rw [hfn] at hp
      simp only at hp
      by_cases hret : nx = sx ∧ ny = sy
      · rw [if_pos hret] at hp; exact hacc' p hp
      · rw [if_neg hret] at hp; exact hacc' p hp
  | succ f ih =>
    intro x y d acc vis hacc hxy p hp
    rw [traceLoop] at hp
    have hacc' : ∀ q ∈ acc ++ [Pt.mk x y], goodPt data W H q := by
      intro q hq
      rcases List.mem_append.mp hq with hq | hq
      · exact hacc q hq
      · rcases List.mem_singleton.mp hq with rfl
        exact hxy
    cases hfn : findNext data W H x y ((d + 6) % 8) (List.range 8) with
    | none => rw [hfn] at hp; exact hacc' p hp
    | some v =>
      obtain ⟨nx, ny, nd⟩ := v
      rw [hfn] at hp
      simp only at hp
      have hnxy : goodPt data W H ⟨nx, ny⟩ := findNext_sound data W H x y _ _ nx ny nd hfn
      by_cases hret : nx = sx ∧ ny = sy
      · rw [if_pos hret] at hp; exact hacc' p hp
      · rw [if_neg hret] at hp
        exact ih nx ny nd (acc ++ [⟨x, y⟩]) _ hacc' hnxy p hp

lemma scanPts_mem (W H x y : ℕ) (h : (x, y) ∈ scanPts W H) :
    1 ≤ x ∧ x + 2 ≤ W ∧ 1 ≤ y ∧ y + 2 ≤ H := by
  simp only [scanPts, List.mem_flatMap, List.mem_map] at h
  obtain ⟨y', hy', x', hx', hxy⟩ := h
  obtain ⟨rfl, rfl⟩ : x' = x ∧ y' = y := by
    constructor <;> [exact congrArg Prod.fst hxy; exact congrArg Prod.snd hxy]
  rw [List.mem_range'_1] at hy' hx'
  omega

lemma scanLoop_mem (data : Gray) (W H : ℕ) :
    ∀ (ps : List (ℕ × ℕ)) (vis : ℕ → Bool) (c : List Pt),
      c ∈ scanLoop data W H ps vis →
      ∃ (x y : ℕ) (vis0 : ℕ → Bool), (x, y) ∈ ps ∧
        data.getD (y * W + x) 0 = 255 ∧
        c = (traceContour data W H (x : ℤ) (y : ℤ) vis0).1 ∧ 20 ≤ c.length := by
  intro ps
  induction ps with
  | nil => intro vis c hc; cases hc
  | cons q rest ih =>
    intro vis c hc
    obtain ⟨x, y⟩ := q
    simp only [scanLoop] at hc
    split at hc
    · rename_i hg
      split at hc
      · rename_i hl
        rcases List.mem_cons.mp hc with rfl | hc
        · exact ⟨x, y, vis, List.mem_cons_self _ _, hg.1, rfl, hl⟩
        · obtain ⟨x', y', vis0, hmem, h255, hceq, hlen⟩ := ih _ c hc
          exact ⟨x', y', vis0, List.mem_cons_of_mem _ hmem, h255, hceq, hlen⟩
      · obtain ⟨x', y', vis0, hmem, h255, hceq, hlen⟩ := ih _ c hc
        exact ⟨x', y', vis0, List.mem_cons_of_mem _ hmem, h255, hceq, hlen⟩
    · obtain ⟨x', y', vis0, hmem, h255, hceq, hlen⟩ := ih _ c hc
      exact ⟨x', y', vis0, List.mem_cons_of_mem _ hmem, h255, hceq, hlen⟩

lemma maskGet_natCast (data : Gray) (W : ℕ) (x y : ℕ) :
    maskGet data W (x : ℤ) (y : ℤ) = data.getD (y * W + x) 0 := rfl

/-- C10: every point of every contour returned by `findContours` lies within
the image bounds and is white (value 255) in the mask, and the first point of
each contour is the scan-start pixel, which lies in the interior range
`x ∈ [1, W-2]`, `y ∈ [1, H-2]`. -/
theorem findContours_points_sound (data : Gray) (W H : ℕ) (c : List Pt)
    (hc : c ∈ findContours data W H) :
    (∀ p ∈ c, 0 ≤ p.x ∧ p.x < (W : ℤ) ∧ 0 ≤ p.y ∧ p.y < (H : ℤ) ∧
      maskGet data W p.x p.y = 255) ∧
    ∃ s : Pt, c.headD ⟨0, 0⟩ = s ∧ c ≠ [] ∧ maskGet data W s.x s.y = 255 ∧
      1 ≤ s.x ∧ s.x + 2 ≤ (W : ℤ) ∧ 1 ≤ s.y ∧ s.y + 2 ≤ (H : ℤ) := by
  obtain ⟨x, y, vis0, hmem, h255, hceq, _⟩ :=
    scanLoop_mem data W H (scanPts W H) (fun _ => false) c hc
  obtain ⟨h1x, h2x, h1y, h2y⟩ := scanPts_mem W H x y hmem
  have hwhite : maskGet data W (x : ℤ) (y : ℤ) = 255 := by
    rw [maskGet_natCast]; exact h255
  have hgood : goodPt data W H ⟨(x : ℤ), (y : ℤ)⟩ := by
    refine ⟨?_, ?_, ?_, ?_, hwhite⟩
    · show (0 : ℤ) ≤ (x : ℤ); positivity
    · show (x : ℤ) < (W : ℤ); exact_mod_cast (by omega : x < W)
    · show (0 : ℤ) ≤ (y : ℤ); positivity
    · show (y : ℤ) < (H : ℤ); exact_mod_cast (by omega : y < H)
  constructor
  · intro p hp
    rw [hceq] at hp
    exact traceLoop_points data W H x y (W * H - 1) x y 0 [] vis0 (by simp) hgood p hp
  · obtain ⟨t, ht⟩ := traceLoop_shape data W H x y (W * H - 1) x y 0 [] vis0
    refine ⟨⟨(x : ℤ), (y : ℤ)⟩, ?_, ?_, hwhite, ?_, ?_, ?_, ?_⟩
    · rw [hceq, traceContour, ht]; simp
    · rw [hceq, traceContour, ht]; simp
    · show (1 : ℤ) ≤ (x : ℤ); exact_mod_cast h1x
    · show (x : ℤ) + 2 ≤ (W : ℤ); exact_mod_cast h2x
    · show (1 : ℤ) ≤ (y : ℤ); exact_mod_cast h1y
    · show (y : ℤ) + 2 ≤ (H : ℤ); exact_mod_cast h2y

/-- A 5×5 mask on which the scanner's first trace (start pixel (2,1)) wanders
and exhausts the `W·H = 25` iteration budget. -/
def loopMaskW : Gray :=
  [255, 255, 255, 255, 255,
   255, 0, 255, 0, 0,
   255, 0, 0, 0, 255,
   255, 0, 255, 0, 255,
   255, 255, 255, 255, 255]

/-- C4 counterexample: on `loopMaskW` the trace started at (2,1) exhausts the
`W·H = 25` iteration budget without returning to its start — with the budget
it stops at exactly 25 points, while a larger budget lets the same trace push
a 26th point before closing, so the 25-round run was cut by the budget, not by
a return or a dead end — and yet the 25-point partial contour is NOT
discarded: it is the one contour `findContours` hands to downstream filtering
(25 ≥ 20 passes the only discard check, the minimum-point filter). -/
theorem trace_budget_kept_counterexample :
    (findContours loopMaskW 5 5).length = 1 ∧
    ((findContours loopMaskW 5 5).headD []).length = 5 * 5 ∧
    (traceLoop loopMaskW 5 5 2 1 (5 * 5 - 1) 2 1 0 [] (fun _ => false)).1.length = 25 ∧
    (traceLoop loopMaskW 5 5 2 1 74 2 1 0 [] (fun _ => false)).1.length = 26 := by
  refine ⟨?_, ?_, ?_, ?_⟩ <;> decide

lemma scanLoop_eq_filter (data : Gray) (W H : ℕ) :
    ∀ (ps : List (ℕ × ℕ)) (vis : ℕ → Bool),
      scanLoop data W H ps vis =
        (scanLoopAll data W H ps vis).filter (fun c => decide (20 ≤ c.length)) := by
  intro ps
  induction ps with
  | nil => intro vis; rfl
  | cons q rest ih =>
    intro vis
    obtain ⟨x, y⟩ := q
    simp only [scanLoop, scanLoopAll]
    split
    · rw [List.filter_cons]
      split
      · rename_i hl
        rw [if_pos (by simpa using hl)]
        rw [ih]
      · rename_i hl
        rw [if_neg (by simpa using hl)]
        rw [ih]
    · exact ih _

/-- C4 amended: a trace that exhausts the `W·H` iteration budget is NOT
specially discarded — the scanner applies exactly one discard criterion, the
minimum-20-point filter, to every traced contour (budget-exhausted or not):
`findContours` equals the unfiltered scan output filtered by `20 ≤ length`.
Scanning does continue at the next candidate pixel after any trace, as the
claim says. -/
theorem findContours_min_points_amended (data : Gray) (W H : ℕ) :
    findContours data W H =
      (findContoursAll data W H).filter (fun c => decide (20 ≤ c.length)) :=
  scanLoop_eq_filter data W H (scanPts W H) (fun _ => false)

/-- An 8×8 mask holding a solid 6×6 white block: its boundary trace is a
20-point contour starting at (1,1). -/
def blockMaskW : Gray :=
  [0, 0, 0, 0, 0, 0, 0, 0,
   0, 255, 255, 255, 255, 255, 255, 0,
   0, 255, 255, 255, 255, 255, 255, 0,
   0, 255, 255, 255, 255, 255, 255, 0,
   0, 255, 255, 255, 255, 255, 255, 0,
   0, 255, 255, 255, 255, 255, 255, 0,
   0, 255, 255, 255, 255, 255, 255, 0,
   0, 0, 0, 0, 0, 0, 0, 0]

theorem findContours_points_sound_witness :
    (∀ p ∈ (findContours blockMaskW 8 8).headD [], 0 ≤ p.x ∧ p.x < (8 : ℤ) ∧
      0 ≤ p.y ∧ p.y < (8 : ℤ) ∧ maskGet blockMaskW 8 p.x p.y = 255) ∧
    ∃ s : Pt, ((findContours blockMaskW 8 8).headD []).headD ⟨0, 0⟩ = s ∧
      (findContours blockMaskW 8 8).headD [] ≠ [] ∧
      maskGet blockMaskW 8 s.x s.y = 255 ∧
      1 ≤ s.x ∧ s.x + 2 ≤ (8 : ℤ) ∧ 1 ≤ s.y ∧ s.y + 2 ≤ (8 : ℤ) :=
  findContours_points_sound blockMaskW 8 8 _ (by decide)

/-! ## Bounding box and degenerate-contour facts (claims C6, C9) -/

lemma foldl_min_le (f : Pt → ℤ) :
    ∀ (l : List Pt) (a : ℤ),
      (l.foldl (fun m q => min m (f q)) a ≤ a) ∧
      ∀ q ∈ l, l.foldl (fun m q => min m (f q)) a ≤ f q := by
  intro l
  induction l with
  | nil => intro a; exact ⟨le_refl a, by simp⟩
  | cons p rest ih =>
    intro a
    constructor
    · exact le_trans (ih (min a (f p))).1 (min_le_left a (f p))
    · intro q hq
      rcases List.mem_cons.mp hq with rfl | hq
      · exact le_trans (ih (min a (f q))).1 (min_le_right a (f q))
      · exact (ih (min a (f p))).2 q hq

lemma le_foldl_max (f : Pt → ℤ) :
    ∀ (l : List Pt) (a : ℤ),
      (a ≤ l.foldl (fun m q => max m (f q)) a) ∧
      ∀ q ∈ l, f q ≤ l.foldl (fun m q => max m (f q)) a := by
  intro l
  induction l with
  | nil => intro a; exact ⟨le_refl a, by simp⟩
  | cons p rest ih =>
    intro a
    constructor
    · exact le_trans (le_max_left a (f p)) (ih (max a (f p))).1
    · intro q hq
      rcases List.mem_cons.mp hq with rfl | hq
      · exact le_trans (le_max_right a (f q)) (ih (max a (f q))).1
      · exact (ih (max a (f p))).2 q hq

lemma getBoundingBox_bounds (c : List Pt) (q : Pt) (hq : q ∈ c) :
    (getBoundingBox c).x ≤ q.x ∧
    q.x ≤ (getBoundingBox c).x + (getBoundingBox c).width ∧
    (getBoundingBox c).y ≤ q.y ∧
    q.y ≤ (getBoundingBox c).y + (getBoundingBox c).height := by
  match c with
  | [] => cases hq
  | p :: rest =>
    simp only [getBoundingBox]
    rcases List.mem_cons.mp hq with rfl | hq
    · refine ⟨(foldl_min_le (fun r => r.x) rest q.x).1, ?_,
        (foldl_min_le (fun r => r.y) rest q.y).1, ?_⟩
      · have := (le_foldl_max (fun r => r.x) rest q.x).1
        omega
      · have := (le_foldl_max (fun r => r.y) rest q.y).1
        omega
    · refine ⟨(foldl_min_le (fun r => r.x) rest p.x).2 q hq, ?_,
        (foldl_min_le (fun r => r.y) rest p.y).2 q hq, ?_⟩
      · have := (le_foldl_max (fun r => r.x) rest p.x).2 q hq
        omega
      · have := (le_foldl_max (fun r => r.y) rest p.y).2 q hq
        omega

lemma shoelaceAux_const (a : Pt) :
    ∀ l : List Pt, (∀ p ∈ l, p = a) → shoelaceAux a l = 0 := by
  intro l
  induction l with
  | nil => intro _; rfl
  | cons p rest ih =>
    intro h
    match rest, ih with
    | [], _ =>
      have hp : p = a := h p (List.mem_cons_self _ _)
      subst hp
      simp [shoelaceAux]
    | q :: rest', ih =>
      have hp : p = a := h p (List.mem_cons_self _ _)
      have hq : q = a := h q (by simp)
      rw [shoelaceAux, ih (fun r hr => h r (List.mem_cons_of_mem _ hr)), hp, hq]
      ring

lemma shoelace_const (c : List Pt) (a : Pt) (h : ∀ p ∈ c, p = a) : shoelace c = 0 := by
  match c with
  | [] => rfl
  | p :: rest =>
    have hp : p = a := h p (List.mem_cons_self _ _)
    subst hp
    rw [shoelace]
    exact shoelaceAux_const p (p :: rest) h

lemma area_zero_of_degenerate_bbox (c : List Pt)
    (hw : (getBoundingBox c).width = 0) (hh : (getBoundingBox c).height = 0) :
    calculateContourArea c = 0 := by
  have hsl : shoelace c = 0 := by
    apply shoelace_const c ⟨(getBoundingBox c).x, (getBoundingBox c).y⟩
    intro p hp
    obtain ⟨h1, h2, h3, h4⟩ := getBoundingBox_bounds c p hp
    have hx : p.x = (getBoundingBox c).x := by omega
    have hy : p.y = (getBoundingBox c).y := by omega
    cases p
    simp only at hx hy
    rw [hx, hy]
  rw [calculateContourArea, hsl]
  norm_num

lemma contourToBoundary_some (f : List Pt → Option (List Pt)) (minA maxA : ℚ)
    (c : List Pt) (b : Boundary) (h : contourToBoundary f minA maxA c = some b) :
    b.area = calculateContourArea c ∧
    b.boundingRect = getBoundingBox c ∧
    b.aspectVal = aspectQ (getBoundingBox c) ∧
    minA ≤ b.area ∧ b.area ≤ maxA ∧
    aspectReject (getBoundingBox c) = false ∧
    ∃ ap, f c = some ap ∧ 4 ≤ ap.length ∧ ap.length ≤ 8 ∧
      b.numVertices = ap.length ∧
      b.points = (if ap.length = 4 then orderQuadPoints ap else ap) := by
  simp only [contourToBoundary] at h
  split at h
  · cases h
  · rename_i harea
    push_neg at harea
    split at h
    · cases h
    · rename_i hasp
      cases hfc : f c with
      | none => rw [hfc] at h; cases h
      | some ap =>
        rw [hfc] at h
        simp only at h
        split at h
        · rename_i h48
          cases h
          exact ⟨rfl, rfl, rfl, harea.1, harea.2,
            Bool.of_not_eq_true hasp, ap, rfl, h48.1, h48.2, rfl, rfl⟩
        · cases h

lemma mem_of_mem_filterOverlapping (t : ℚ) :
    ∀ (n : ℕ) (bs : List Boundary), bs.length ≤ n →
      ∀ b, b ∈ filterOverlapping t bs → b ∈ bs := by
  intro n
  induction n with
  | zero =>
    intro bs hlen b h
    match bs, hlen with
    | [], _ => rw [filterOverlapping] at h; cases h
  | succ n ih =>
    intro bs hlen b h
    match bs with
    | [] => rw [filterOverlapping] at h; cases h
    | c :: rest =>
      rw [filterOverlapping] at h
      rcases List.mem_cons.mp h with rfl | h'
      · exact List.mem_cons_self _ _
      · have hsub := ih _
          (le_trans (List.length_filter_le _ _) (Nat.le_of_succ_le_succ hlen)) b h'
        exact List.mem_cons_of_mem _ (List.mem_filter.mp hsub).1

lemma filterOverlapping_pairwise (t : ℚ) :
    ∀ (n : ℕ) (bs : List Boundary), bs.length ≤ n →
      (filterOverlapping t bs).Pairwise
        (fun a b => calculateIoU a.boundingRect b.boundingRect ≤ t) := by
  intro n
  induction n with
  | zero =>
    intro bs hlen
    match bs, hlen with
    | [], _ => rw [filterOverlapping]; exact List.Pairwise.nil
  | succ n ih =>
    intro bs hlen
    match bs with
    | [] => rw [filterOverlapping]; exact List.Pairwise.nil
    | c :: rest =>
      rw [filterOverlapping]
      refine List.Pairwise.cons ?_ ?_
      · intro b hb
        have hlen' : (rest.filter fun c' =>
            decide (calculateIoU c.boundingRect c'.boundingRect ≤ t)).length ≤ n :=
          le_trans (List.length_filter_le _ _) (Nat.le_of_succ_le_succ hlen)
        have hmem := mem_of_mem_filterOverlapping t n _ hlen' b hb
        have := (List.mem_filter.mp hmem).2
        exact of_decide_eq_true this
      · exact ih _ (le_trans (List.length_filter_le _ _) (Nat.le_of_succ_le_succ hlen))

lemma filterOverlapping_noop (t : ℚ) :
    ∀ (n : ℕ) (bs : List Boundary), bs.length ≤ n →
      bs.Pairwise (fun a b => calculateIoU a.boundingRect b.boundingRect ≤ t) →
      filterOverlapping t bs = bs := by
  intro n
  induction n with
  | zero =>
    intro bs hlen _
    match bs, hlen with
    | [], _ => rw [filterOverlapping]
  | succ n ih =>
    intro bs hlen hp
    match bs with
    | [] => rw [filterOverlapping]
    | c :: rest =>
      rw [filterOverlapping]
      have hfilter : (rest.filter fun c' =>
          decide (calculateIoU c.boundingRect c'.boundingRect ≤ t)) = rest := by
        apply List.filter_eq_self.mpr
        intro b hb
        exact decide_eq_true ((List.pairwise_cons.mp hp).1 b hb)
      rw [hfilter]
      rw [ih rest (Nat.le_of_succ_le_succ hlen) (List.pairwise_cons.mp hp).2]

/-- C7: overlap filtering at IoU threshold 0.5 is idempotent — applied to its
own output it returns that output unchanged — and equivalently every pair of
boundaries it returns has bounding-box IoU at most 0.5 (earlier-kept vs
later-kept, in output order). -/
theorem filterOverlapping_idempotent (bs : List Boundary) :
    filterOverlapping (1/2) (filterOverlapping (1/2) bs) = filterOverlapping (1/2) bs ∧
    (filterOverlapping (1/2) bs).Pairwise
      (fun a b => calculateIoU a.boundingRect b.boundingRect ≤ 1/2) := by
  have hp := filterOverlapping_pairwise (1/2) bs.length bs (le_refl _)
  exact ⟨filterOverlapping_noop (1/2) (filterOverlapping (1/2) bs).length _ (le_refl _) hp, hp⟩

lemma snd_mem_of_enumFrom {α : Type _} :
    ∀ (l : List α) (n : ℕ) (p : ℕ × α), p ∈ l.enumFrom n → p.2 ∈ l := by
  intro l
  induction l with
  | nil => intro n p h; cases h
  | cons a l ih =>
    intro n p h
    simp only [List.enumFrom] at h
    rcases List.mem_cons.mp h with rfl | h
    · exact List.mem_cons_self _ _
    · exact List.mem_cons_of_mem _ (ih (n + 1) p h)

lemma mem_classifyDetections (bs : List Boundary) (b : Boundary)
    (h : b ∈ classifyDetections bs) :
    ∃ b₀ ∈ bs, b.points = b₀.points ∧ b.area = b₀.area ∧ b.aspectVal = b₀.aspectVal ∧
      b.numVertices = b₀.numVertices ∧ b.boundingRect = b₀.boundingRect := by
  simp only [classifyDetections] at h
  rw [List.mem_map] at h
  obtain ⟨p, hp, rfl⟩ := h
  exact ⟨p.2, snd_mem_of_enumFrom bs 0 p hp, rfl, rfl, rfl, rfl, rfl⟩

/-- C6: for every raster (represented by any contour list and approximation
choice the pixel stages could produce) and valid options
(`0 < minAreaRatio`, nonempty image), every Boundary in the returned
DetectionResult has `area ∈ [minAreaRatio·W·H, maxAreaRatio·W·H]` and
`aspectRatio ∈ [0.3, 3.5]`, the aspect ratio being the contour bounding box's
width over height. -/
theorem detect_area_aspect_bounds
    (approxFor : List Pt → Option (List Pt)) (contours : List (List Pt))
    (inter : List (String × Gray)) (W H : ℕ) (opts : Options)
    (hmin : 0 < opts.minAreaFrac) (hW : 0 < W) (hH : 0 < H) :
    ∀ b ∈ (detectDocumentsModel approxFor contours inter W H opts).boundaries,
      ((W * H : ℕ) : ℚ) * opts.minAreaFrac ≤ b.area ∧
      b.area ≤ ((W * H : ℕ) : ℚ) * opts.maxAreaFrac ∧
      3/10 ≤ b.aspectVal ∧ b.aspectVal ≤ 7/2 := by
  intro b hb
  have hb1 : b ∈ classifyDetections (filterOverlapping (1/2)
      (List.insertionSort (fun a b : Boundary => b.area ≤ a.area)
        (contours.filterMap (contourToBoundary approxFor
          (((W * H : ℕ) : ℚ) * opts.minAreaFrac)
          (((W * H : ℕ) : ℚ) * opts.maxAreaFrac))))) := hb
  obtain ⟨b₀, hb₀, hpts, harea, hasp, hnum, hrect⟩ := mem_classifyDetections _ b hb1
  have hb2 := mem_of_mem_filterOverlapping (1/2) _ _ (le_refl _) b₀ hb₀
  have hb3 := (List.perm_insertionSort _ _).mem_iff.mp hb2
  obtain ⟨c, hc, hcb⟩ := List.mem_filterMap.mp hb3
  obtain ⟨ha1, ha2, ha3, ha4, ha5, ha6, _⟩ := contourToBoundary_some _ _ _ _ _ hcb
  have hpos : 0 < ((W * H : ℕ) : ℚ) * opts.minAreaFrac := by
    apply mul_pos _ hmin
    have h1 : 0 < W * H := Nat.mul_pos hW hH
    exact_mod_cast h1
  have haspb : 3/10 ≤ b.aspectVal ∧ b.aspectVal ≤ 7/2 := by
    by_cases hh : (getBoundingBox c).height = 0
    · exfalso
      have hwid : (getBoundingBox c).width = 0 := by
        rw [aspectReject, if_pos hh] at ha6
        simpa using ha6
      have hz : calculateContourArea c = 0 := area_zero_of_degenerate_bbox c hwid hh
      have hle : ((W * H : ℕ) : ℚ) * opts.minAreaFrac ≤ 0 := by
        rw [ha1, hz] at ha4
        exact ha4
      linarith
    · rw [aspectReject, if_neg hh] at ha6
      have hno := of_decide_eq_false ha6
      push_neg at hno
      rw [hasp, ha3]
      exact hno
  exact ⟨by rw [harea]; exact ha4, by rw [harea]; exact ha5, haspb.1, haspb.2⟩

theorem detect_area_aspect_bounds_witness :
    (0 : ℚ) < ({} : Options).minAreaFrac ∧ 0 < 10 ∧
    ∀ b ∈ (detectDocumentsModel (fun _ => none) [] [] 10 10 {}).boundaries,
      ((10 * 10 : ℕ) : ℚ) * ({} : Options).minAreaFrac ≤ b.area ∧
      b.area ≤ ((10 * 10 : ℕ) : ℚ) * ({} : Options).maxAreaFrac ∧
      3/10 ≤ b.aspectVal ∧ b.aspectVal ≤ 7/2 :=
  ⟨by show (0 : ℚ) < 2/100; norm_num, by norm_num,
   detect_area_aspect_bounds (fun _ => none) [] [] 10 10 {}
     (by show (0 : ℚ) < 2/100; norm_num) (by norm_num) (by norm_num)⟩

/-- C9: for every raster and valid options, no returned Boundary has a
bounding box of height 0 — a contour with a degenerate (height-0) bounding box
is always discarded: with positive width its aspect ratio (`Infinity`) fails
the `> 3.5` filter, and with width 0 its area is 0 and it fails the minimum
area filter, so the aspect-ratio division never turns such a contour into an
output Boundary. -/
theorem detect_no_zero_height
    (approxFor : List Pt → Option (List Pt)) (contours : List (List Pt))
    (inter : List (String × Gray)) (W H : ℕ) (opts : Options)
    (hmin : 0 < opts.minAreaFrac) (hW : 0 < W) (hH : 0 < H) :
    ∀ b ∈ (detectDocumentsModel approxFor contours inter W H opts).boundaries,
      b.boundingRect.height ≠ 0 := by
  intro b hb
  have hb1 : b ∈ classifyDetections (filterOverlapping (1/2)
      (List.insertionSort (fun a b : Boundary => b.area ≤ a.area)
        (contours.filterMap (contourToBoundary approxFor
          (((W * H : ℕ) : ℚ) * opts.minAreaFrac)
          (((W * H : ℕ) : ℚ) * opts.maxAreaFrac))))) := hb
  obtain ⟨b₀, hb₀, hpts, harea, hasp, hnum, hrect⟩ := mem_classifyDetections _ b hb1
  have hb2 := mem_of_mem_filterOverlapping (1/2) _ _ (le_refl _) b₀ hb₀
  have hb3 := (List.perm_insertionSort _ _).mem_iff.mp hb2
  obtain ⟨c, hc, hcb⟩ := List.mem_filterMap.mp hb3
  obtain ⟨ha1, ha2, ha3, ha4, ha5, ha6, _⟩ := contourToBoundary_some _ _ _ _ _ hcb
  intro hzero
  rw [hrect, ha2] at hzero
  have hwid : (getBoundingBox c).width = 0 := by
    rw [aspectReject, if_pos hzero] at ha6
    simpa using ha6
  have hz : calculateContourArea c = 0 := area_zero_of_degenerate_bbox c hwid hzero
  have hpos : 0 < ((W * H : ℕ) : ℚ) * opts.minAreaFrac := by
    apply mul_pos _ hmin
    have h1 : 0 < W * H := Nat.mul_pos hW hH
    exact_mod_cast h1
  rw [ha1, hz] at ha4
  linarith

theorem detect_no_zero_height_witness :
    (0 : ℚ) < ({} : Options).minAreaFrac ∧ 0 < 20 ∧
    ∀ b ∈ (detectDocumentsModel (fun _ => some [⟨0, 0⟩, ⟨1, 0⟩, ⟨1, 1⟩, ⟨0, 1⟩])
        [] [] 20 20 {}).boundaries,
      b.boundingRect.height ≠ 0 :=
  ⟨by show (0 : ℚ) < 2/100; norm_num, by norm_num,
   detect_no_zero_height (fun _ => some [⟨0, 0⟩, ⟨1, 0⟩, ⟨1, 1⟩, ⟨0, 1⟩]) [] [] 20 20 {}
     (by show (0 : ℚ) < 2/100; norm_num) (by norm_num) (by norm_num)⟩

/-! ## Quadrilateral ordering (claim C8) -/

lemma minSumIdxAux_lt :
    ∀ (rest : List Pt) (i : ℕ) (bv : ℤ) (best : ℕ), best < i →
      minSumIdxAux rest i bv best < i + rest.length := by
  intro rest
  induction rest with
  | nil =>
    intro i bv best h
    simpa [minSumIdxAux] using h
  | cons p rest ih =>
    intro i bv best h
    rw [minSumIdxAux]
    split
    · have h2 := ih (i + 1) (sumXY p) i (Nat.lt_succ_self i)
      simp only [List.length_cons]
      omega
    · have h2 := ih (i + 1) bv best (Nat.lt_succ_of_lt h)
      simp only [List.length_cons]
      omega

lemma drop_cons_getD :
    ∀ (l : List Pt) (i : ℕ) (p : Pt) (rest : List Pt),
      l.drop i = p :: rest → l.getD i default = p ∧ l.drop (i + 1) = rest := by
  intro l
  induction l with
  | nil => intro i p rest h; rw [List.drop_nil] at h; cases h
  | cons a l ih =>
    intro i p rest h
    match i with
    | 0 =>
      simp only [List.drop_zero] at h
      cases h
      exact ⟨rfl, by simp⟩
    | i + 1 =>
      simp only [List.drop_succ_cons] at h
      exact ih i p rest h

lemma minSumIdxAux_min :
    ∀ (rest : List Pt) (i : ℕ) (bv : ℤ) (best : ℕ) (l : List Pt),
      sumXY (l.getD best default) = bv → l.drop i = rest →
      sumXY (l.getD (minSumIdxAux rest i bv best) default) ≤ bv ∧
      ∀ q ∈ rest, sumXY (l.getD (minSumIdxAux rest i bv best) default) ≤ sumXY q := by
  intro rest
  induction rest with
  | nil =>
    intro i bv best l hbv _
    rw [minSumIdxAux]
    exact ⟨le_of_eq hbv, by simp⟩
  | cons p rest ih =>
    intro i bv best l hbv hdrop
    obtain ⟨hget, hdrop'⟩ := drop_cons_getD l i p rest hdrop
    rw [minSumIdxAux]
    split
    · rename_i hlt
      obtain ⟨h1, h2⟩ := ih (i + 1) (sumXY p) i l (by rw [hget]) hdrop'
      refine ⟨le_trans h1 (le_of_lt hlt), ?_⟩
      intro q hq
      rcases List.mem_cons.mp hq with rfl | hq
      · exact h1
      · exact h2 q hq
    · rename_i hnlt
      push_neg at hnlt
      obtain ⟨h1, h2⟩ := ih (i + 1) bv best l hbv hdrop'
      refine ⟨h1, ?_⟩
      intro q hq
      rcases List.mem_cons.mp hq with rfl | hq
      · exact le_trans h1 hnlt
      · exact h2 q hq

lemma minSumIdx_lt (l : List Pt) (h : l ≠ []) : minSumIdx l < l.length := by
  match l with
  | p :: rest =>
    rw [minSumIdx]
    have h2 := minSumIdxAux_lt rest 1 (sumXY p) 0 (by omega)
    simp only [List.length_cons]
    omega

lemma minSumIdx_min (l : List Pt) (h : l ≠ []) :
    ∀ q ∈ l, sumXY (l.getD (minSumIdx l) default) ≤ sumXY q := by
  match l with
  | p :: rest =>
    intro q hq
    rw [minSumIdx]
    obtain ⟨h1, h2⟩ := minSumIdxAux_min rest 1 (sumXY p) 0 (p :: rest) rfl (by simp)
    rcases List.mem_cons.mp hq with rfl | hq
    · exact h1
    · exact h2 q hq

lemma headD_rotate (l : List Pt) (k : ℕ) (hk : k < l.length) :
    (l.rotate k).headD default = l.getD k default := by
  rw [List.rotate_eq_drop_append_take (le_of_lt hk)]
  obtain ⟨p, rest, hd⟩ : ∃ p rest, l.drop k = p :: rest := by
    cases hdrop : l.drop k with
    | nil =>
      exfalso
      rw [List.drop_eq_nil_iff] at hdrop
      omega
    | cons p rest => exact ⟨p, rest, rfl⟩
  rw [hd]
  simp only [List.cons_append, List.headD_cons]
  exact ((drop_cons_getD l k p rest hd).1).symm

/-- C8: for a 4-vertex approximation, the returned points are the
approximation's points sorted by angle around their centroid (ascending atan2
order, realised exactly by the `angLeAround` comparator) and rotated so the
vertex of minimal `x + y` comes first — in particular the output is a
permutation of the input whose first point has the minimum `x + y` among the
four.  Non-4-vertex point lists are returned unchanged by `orderQuadPoints`,
and every returned Boundary's points are exactly the approximation output,
quad-ordered when and only when the approximation has 4 vertices — boundaries
with 5 to 8 vertices keep the approximation's order. -/
theorem orderQuadPoints_spec :
    (∀ ps : List Pt, ps.length = 4 →
      (orderQuadPoints ps).Perm ps ∧
      orderQuadPoints ps = (angleSortQuad ps).rotate (minSumIdx (angleSortQuad ps)) ∧
      ∀ q ∈ ps, sumXY ((orderQuadPoints ps).headD default) ≤ sumXY q) ∧
    (∀ ps : List Pt, ps.length ≠ 4 → orderQuadPoints ps = ps) ∧
    (∀ (approxFor : List Pt → Option (List Pt)) (contours : List (List Pt))
        (inter : List (String × Gray)) (W H : ℕ) (opts : Options) (b : Boundary),
      b ∈ (detectDocumentsModel approxFor contours inter W H opts).boundaries →
      ∃ c ∈ contours, ∃ ap, approxFor c = some ap ∧ b.numVertices = ap.length ∧
        b.points = if ap.length = 4 then orderQuadPoints ap else ap) := by
  refine ⟨?_, ?_, ?_⟩
  · intro ps h4
    have hsortlen : (angleSortQuad ps).length = ps.length := by
      rw [angleSortQuad]
      exact List.length_insertionSort _ _
    have hne : angleSortQuad ps ≠ [] := by
      apply List.ne_nil_of_length_pos
      rw [hsortlen, h4]
      omega
    have hklt : minSumIdx (angleSortQuad ps) < (angleSortQuad ps).length :=
      minSumIdx_lt _ hne
    have hperm : (angleSortQuad ps).Perm ps := by
      rw [angleSortQuad]
      exact List.perm_insertionSort _ _
    have hord : orderQuadPoints ps =
        (angleSortQuad ps).rotate (minSumIdx (angleSortQuad ps)) := by
      rw [orderQuadPoints, if_pos h4]
    refine ⟨?_, hord, ?_⟩
    · rw [hord]
      exact (List.rotate_perm _ _).trans hperm
    · intro q hq
      rw [hord, headD_rotate _ _ hklt]
      exact minSumIdx_min _ hne q (hperm.mem_iff.mpr hq)
  · intro ps h4
    rw [orderQuadPoints, if_neg h4]
  · intro approxFor contours inter W H opts b hb
    have hb1 : b ∈ classifyDetections (filterOverlapping (1/2)
        (List.insertionSort (fun a b : Boundary => b.area ≤ a.area)
          (contours.filterMap (contourToBoundary approxFor
            (((W * H : ℕ) : ℚ) * opts.minAreaFrac)
            (((W * H : ℕ) : ℚ) * opts.maxAreaFrac))))) := hb
    obtain ⟨b₀, hb₀, hpts, harea, hasp, hnum, hrect⟩ := mem_classifyDetections _ b hb1
    have hb2 := mem_of_mem_filterOverlapping (1/2) _ _ (le_refl _) b₀ hb₀
    have hb3 := (List.perm_insertionSort _ _).mem_iff.mp hb2
    obtain ⟨c, hc, hcb⟩ := List.mem_filterMap.mp hb3
    obtain ⟨_, _, _, _, _, _, ap, hap, _, _, hnv, hp⟩ :=
      contourToBoundary_some _ _ _ _ _ hcb
    exact ⟨c, hc, ap, hap, by rw [hnum, hnv], by rw [hpts, hp]⟩

/-- Four concrete quad corners, deliberately out of order. -/
def quadPtsW : List Pt := [⟨5, 1⟩, ⟨1, 1⟩, ⟨5, 4⟩, ⟨1, 4⟩]

theorem orderQuadPoints_spec_witness :
    quadPtsW.length = 4 ∧
    ∀ q ∈ quadPtsW, sumXY ((orderQuadPoints quadPtsW).headD default) ≤ sumXY q :=
  ⟨by decide, (orderQuadPoints_spec.1 quadPtsW (by decide)).2.2⟩
